import Mathlib

/-!
# Verification of the slice-sampling core (`slice.py`)

A shallow embedding of the sampling core of the repository: the
`Elliptical` state machine (`next_step`), the two interval-search
strategies (`stepout`, `double`), the discretized density lookup
(`fx` via `argmin`), the boundary-marker collapse loop of
`find_patches`, grid construction (`arange`, `construct`) and strategy
selection (`change_update_fn`).

Python floats are idealized as rationals (`ℚ`); the pseudo-random
draws of `np.random.uniform` are passed in explicitly as parameters in
`[0,1)`; mutation of `self` becomes explicit state passing on
`SamplerState`; the unbounded rejection loop of mode 0 consumes an
explicit finite list of draws and returns `none` when it runs out
(modelling divergence).
-/

namespace Elliptical

/-- The strategy field `self.update_fn` of `slice.py`: the method reference is
either `stepout` or `double` (lines 17, 87-93). -/
inductive UpdateFn where
  | stepout
  | double
deriving DecidableEq, Repr

/-- The mutable per-iteration state of `Elliptical` (`slice.py` lines 15,
25-29): `mode`, `slice`, `curr_x`, `fx`, `curr_y`, `horizontal` and the
selected update function. -/
structure SamplerState where
  mode : ℤ
  slice : ℚ × ℚ
  curr_x : ℚ
  fx : ℚ
  curr_y : ℚ
  horizontal : ℚ
  update_fn : UpdateFn
deriving DecidableEq, Repr

/-- The state `__init__` leaves behind (`slice.py` lines 15-29): every visible
field at the `-1` sentinel, slice at the `(-1,-1)` sentinel, step-out
selected. -/
def initState : SamplerState :=
  { mode := -1
    slice := (-1, -1)
    curr_x := -1
    fx := -1
    curr_y := -1
    horizontal := -1
    update_fn := UpdateFn.stepout }

/-- `np.argmin` over a list: index of the first least element (`[]` gives 0).
Mirrors numpy's tie rule: the first occurrence of the minimum wins. -/
def argmin : List ℚ → ℕ
  | [] => 0
  | [_] => 0
  | a :: b :: t =>
    let i := argmin (b :: t)
    if a ≤ (b :: t).getD i 0 then 0 else i + 1

/-- `Elliptical.__fx` (`slice.py` lines 139-142): nearest-grid-point density
lookup, `Y[argmin |X - x|]`. -/
def fx (X Y : List ℚ) (x : ℚ) : ℚ :=
  Y.getD (argmin (X.map fun t => |t - x|)) 0

/-- `Elliptical.__sample_x`'s draw (`slice.py` lines 79-81):
`np.random.uniform(low=slice[0], high=slice[1])` with the underlying unit
draw `u` made explicit as `low + u*(high-low)`. -/
def sample_x (sl : ℚ × ℚ) (u : ℚ) : ℚ :=
  sl.1 + u * (sl.2 - sl.1)

/-- The mode-0 rejection loop (`slice.py` lines 47-50): draw a candidate,
re-draw while `curr_y > fx(candidate)`.  One unit draw per candidate; `none`
when the supplied draws run out (the Python loop would keep spinning). -/
def rejectLoop (f : ℚ → ℚ) (y : ℚ) (sl : ℚ × ℚ) : List ℚ → Option ℚ
  | [] => none
  | u :: us =>
    if y > f (sample_x sl u) then rejectLoop f y sl us else some (sample_x sl u)

/-- Final left endpoint of the step-out left loop (`slice.py` lines 105-110):
`while j > 0 and y < fx(l): l -= w; j -= 1`. The fuel is `j`. -/
def stepoutLeftFinal (f : ℚ → ℚ) (y w : ℚ) : ℕ → ℚ → ℚ
  | 0, l => l
  | j + 1, l => if y < f l then stepoutLeftFinal f y w j (l - w) else l

/-- The `(l, r)` pairs the step-out left loop writes to `self.slice`, in
order (`slice.py` line 108). -/
def stepoutLeftTrace (f : ℚ → ℚ) (y w : ℚ) : ℕ → ℚ → ℚ → List (ℚ × ℚ)
  | 0, _, _ => []
  | j + 1, l, r =>
    if y < f l then (l - w, r) :: stepoutLeftTrace f y w j (l - w) r else []

/-- Final right endpoint of the step-out right loop (`slice.py` lines
111-116): `while k > 0 and y < fx(r): r += w; k -= 1`. The fuel is `k`. -/
def stepoutRightFinal (f : ℚ → ℚ) (y w : ℚ) : ℕ → ℚ → ℚ
  | 0, r => r
  | k + 1, r => if y < f r then stepoutRightFinal f y w k (r + w) else r

/-- The `(l, r)` pairs the step-out right loop writes to `self.slice`
(`slice.py` line 114); `l` is already final. -/
def stepoutRightTrace (f : ℚ → ℚ) (y w l : ℚ) : ℕ → ℚ → List (ℚ × ℚ)
  | 0, _ => []
  | k + 1, r =>
    if y < f r then (l, r + w) :: stepoutRightTrace f y w l k (r + w) else []

/-- `Elliptical.stepout` (`slice.py` lines 98-117): `u`, `v` are the two unit
draws; `l = x - w*u`, `r = l + w`, `j = floor(m*v)`, `k = m - 1 - j`, then the
two expansion loops. Returns the final `[l, r]`. -/
def stepout (f : ℚ → ℚ) (x y u v w : ℚ) (m : ℕ) : ℚ × ℚ :=
  let l := x - w * u
  let r := l + w
  let j : ℤ := ⌊(m : ℚ) * v⌋
  let k : ℤ := (m : ℤ) - 1 - j
  (stepoutLeftFinal f y w j.toNat l, stepoutRightFinal f y w k.toNat r)

/-- The full sequence of intermediate `(l, r)` pairs `stepout` writes to
`self.slice`: all left-loop writes, then all right-loop writes. -/
def stepoutTrace (f : ℚ → ℚ) (x y u v w : ℚ) (m : ℕ) : List (ℚ × ℚ) :=
  let l := x - w * u
  let r := l + w
  let j : ℤ := ⌊(m : ℚ) * v⌋
  let k : ℤ := (m : ℤ) - 1 - j
  stepoutLeftTrace f y w j.toNat l r ++
    stepoutRightTrace f y w (stepoutLeftFinal f y w j.toNat l) k.toNat r

/-- Final interval of the doubling loop (`slice.py` lines 126-136):
`while k > 0 and (y < fx(l) or y < fx(r))`: draw `v`, extend the side chosen
by `v < 0.5` by the current width. `vs n` is the `n`-th unit draw. -/
def doubleFinal (f : ℚ → ℚ) (y : ℚ) : ℕ → (ℕ → ℚ) → ℚ → ℚ → ℚ × ℚ
  | 0, _, l, r => (l, r)
  | k + 1, vs, l, r =>
    if y < f l ∨ y < f r then
      if vs 0 < 1 / 2 then doubleFinal f y k (fun n => vs (n + 1)) (l - (r - l)) r
      else doubleFinal f y k (fun n => vs (n + 1)) l (r + (r - l))
    else (l, r)

/-- The `(l, r)` pairs the doubling loop writes to `self.slice`, in order
(`slice.py` line 134). -/
def doubleTrace (f : ℚ → ℚ) (y : ℚ) : ℕ → (ℕ → ℚ) → ℚ → ℚ → List (ℚ × ℚ)
  | 0, _, _, _ => []
  | k + 1, vs, l, r =>
    if y < f l ∨ y < f r then
      if vs 0 < 1 / 2 then
        (l - (r - l), r) :: doubleTrace f y k (fun n => vs (n + 1)) (l - (r - l)) r
      else
        (l, r + (r - l)) :: doubleTrace f y k (fun n => vs (n + 1)) l (r + (r - l))
    else []

/-- `Elliptical.double` (`slice.py` lines 122-137): `u` the initial unit
draw, `vs` the per-iteration side draws; `l = x - w*u`, `r = l + w`, then the
doubling loop with budget `p`. -/
def double (f : ℚ → ℚ) (x y u : ℚ) (vs : ℕ → ℚ) (w : ℚ) (p : ℕ) : ℚ × ℚ :=
  let l := x - w * u
  doubleFinal f y p vs l (l + w)

/-- The unit draws one `next_step` call may consume: the mode-0 candidate
draws (a finite supply), the mode-2 height draw, and the mode-4 search draws
(`u`, `v` for step-out; `u`, `vs` for doubling). -/
structure Draws where
  us : List ℚ
  uy : ℚ
  su : ℚ
  sv : ℚ
  vs : ℕ → ℚ

/-- `Elliptical.next_step` (`slice.py` lines 42-74): advance
`mode := (mode + 1) % 5` and run that mode's block. Mode 0 returns `none`
when the rejection loop exhausts its draws (the Python loop would not
terminate); the display refresh is an external effect and has no state. -/
def next_step (f : ℚ → ℚ) (d : Draws) (s : SamplerState) : Option SamplerState :=
  let m := (s.mode + 1) % 5
  if m = 0 then
    match rejectLoop f s.curr_y s.slice d.us with
    | none => none
    | some x =>
      some { s with mode := m, curr_x := x, horizontal := -1, fx := -1, curr_y := -1 }
  else if m = 1 then
    some { s with mode := m, fx := f s.curr_x }
  else if m = 2 then
    some { s with mode := m, curr_y := d.uy * s.fx, slice := (-1, -1) }
  else if m = 3 then
    some { s with mode := m, horizontal := s.curr_y }
  else
    let sl :=
      match s.update_fn with
      | UpdateFn.stepout => stepout f s.curr_x s.curr_y d.su d.sv 1 40
      | UpdateFn.double => double f s.curr_x s.curr_y d.su d.vs (1 / 4) 5
    some { s with mode := m, slice := sl }

/-- `Elliptical.change_update_fn` (`slice.py` lines 87-93): `0` selects
step-out, `1` selects doubling, anything else raises
`RuntimeError(str(fn) + ' not an update function')` before touching any
state. Returns the post-call state together with the raised error, if any. -/
def change_update_fn (s : SamplerState) (fn : ℤ) : SamplerState × Option ℤ :=
  if fn = 0 then ({ s with update_fn := UpdateFn.stepout }, none)
  else if fn = 1 then ({ s with update_fn := UpdateFn.double }, none)
  else (s, some fn)

/-- `np.sign` on a rational. -/
def signQ (q : ℚ) : ℤ :=
  if q < 0 then -1 else if q = 0 then 0 else 1

/-- `np.sign(Y - threshold)` (`slice.py` line 153). -/
def signsOf (Y : List ℚ) (threshold : ℚ) : List ℤ :=
  Y.map fun y => signQ (y - threshold)

/-- `np.diff` (`slice.py` line 154): consecutive differences. -/
def diffList : List ℤ → List ℤ
  | [] => []
  | [_] => []
  | a :: b :: t => (b - a) :: diffList (b :: t)

/-- The in-place marker-collapse loop of `__find_patches` (`slice.py` lines
155-157): `for i in range(1, len(diff)): if diff[i-1] != 0: diff[i] = 0`,
where `diff[i-1]` reads the already-mutated predecessor. `prev` is that
mutated predecessor (`0` before the first entry). -/
def collapseAux : ℤ → List ℤ → List ℤ
  | _, [] => []
  | prev, d :: ds =>
    (if prev ≠ 0 then 0 else d) :: collapseAux (if prev ≠ 0 then 0 else d) ds

/-- The collapse loop run on a whole diff array (the first entry is never
zeroed, matching the loop starting at index 1). -/
def collapse (ds : List ℤ) : List ℤ :=
  collapseAux 0 ds

/-- `np.arange(start, stop, step)` idealized over `ℚ`: `⌈(stop-start)/step⌉`
values `start + i*step` (empty for step `0`, where numpy raises before this
value is used). -/
def arange (start stop step : ℚ) : List ℚ :=
  if step = 0 then []
  else (List.range (Int.toNat ⌈(stop - start) / step⌉)).map fun i : ℕ => start + (i : ℚ) * step

/-- The failures `Elliptical.__init__` can actually hit: `np.arange` raising
on a zero step, and the `IndexError` from `X[0]` / `Y[midpoint]` inside
`__find_patches` when the grid is empty (`slice.py` lines 162-166, 173). -/
inductive ConstructError where
  | zeroStepError
  | emptyGridError
deriving DecidableEq, Repr

/-- The immutable part `__init__` builds: the grid `X`, the sampled density
`Y` and the initial mutable state. -/
structure Sampler where
  X : List ℚ
  Y : List ℚ
  state : SamplerState
deriving Repr

/-- `Elliptical.__init__` (`slice.py` lines 14-31) with the density function
made a parameter: build `X = arange(x_low, x_high, x_step)`, sample `Y`
pointwise, run `__find_patches` (which indexes `X[0]` and so raises on an
empty grid), and set every visible field to its `-1` sentinel. No parameter
validation of any kind is performed. -/
def construct (x_low x_high x_step : ℚ) (f : ℚ → ℚ) : Except ConstructError Sampler :=
  if x_step = 0 then Except.error ConstructError.zeroStepError
  else
    let X := arange x_low x_high x_step
    if X = [] then Except.error ConstructError.emptyGridError
    else Except.ok { X := X, Y := X.map f, state := initState }

/-- Whether an `Except` is a success. -/
def isOkE {ε α : Type} : Except ε α → Bool
  | Except.ok _ => true
  | Except.error _ => false

/-! ## Lemmas about the step-out loops -/

theorem stepoutLeftFinal_le (f : ℚ → ℚ) (y w : ℚ) (hw : 0 ≤ w) :
    ∀ (j : ℕ) (l : ℚ), stepoutLeftFinal f y w j l ≤ l := by
  intro j
  induction j with
  | zero => intro l; simp [stepoutLeftFinal]
  | succ j ih =>
    intro l
    simp only [stepoutLeftFinal]
    split
    · exact le_trans (ih (l - w)) (by linarith)
    · exact le_refl l

theorem stepoutRightFinal_ge (f : ℚ → ℚ) (y w : ℚ) (hw : 0 ≤ w) :
    ∀ (k : ℕ) (r : ℚ), r ≤ stepoutRightFinal f y w k r := by
  intro k
  induction k with
  | zero => intro r; simp [stepoutRightFinal]
  | succ k ih =>
    intro r
    simp only [stepoutRightFinal]
    split
    · exact le_trans (by linarith) (ih (r + w))
    · exact le_refl r

theorem stepoutLeftTrace_length (f : ℚ → ℚ) (y w : ℚ) :
    ∀ (j : ℕ) (l r : ℚ), (stepoutLeftTrace f y w j l r).length ≤ j := by
  intro j
  induction j with
  | zero => intro l r; simp [stepoutLeftTrace]
  | succ j ih =>
    intro l r
    simp only [stepoutLeftTrace]
    split
    · simpa using Nat.succ_le_succ (ih (l - w) r)
    · simp

theorem stepoutRightTrace_length (f : ℚ → ℚ) (y w l : ℚ) :
    ∀ (k : ℕ) (r : ℚ), (stepoutRightTrace f y w l k r).length ≤ k := by
  intro k
  induction k with
  | zero => intro r; simp [stepoutRightTrace]
  | succ k ih =>
    intro r
    simp only [stepoutRightTrace]
    split
    · simpa using Nat.succ_le_succ (ih (r + w))
    · simp

theorem stepoutLeftTrace_mem (f : ℚ → ℚ) (y w : ℚ) (hw : 0 ≤ w) :
    ∀ (j : ℕ) (l r : ℚ), ∀ pr ∈ stepoutLeftTrace f y w j l r, pr.1 ≤ l ∧ pr.2 = r := by
  intro j
  induction j with
  | zero => intro l r pr h; simp [stepoutLeftTrace] at h
  | succ j ih =>
    intro l r pr h
    simp only [stepoutLeftTrace] at h
    split at h
    · rcases List.mem_cons.mp h with h | h
      · subst h; exact ⟨by simp only; linarith, rfl⟩
      · have := ih (l - w) r pr h
        exact ⟨by linarith [this.1], this.2⟩
    · simp at h

theorem stepoutRightTrace_mem (f : ℚ → ℚ) (y w l : ℚ) (hw : 0 ≤ w) :
    ∀ (k : ℕ) (r : ℚ), ∀ pr ∈ stepoutRightTrace f y w l k r, pr.1 = l ∧ r ≤ pr.2 := by
  intro k
  induction k with
  | zero => intro r pr h; simp [stepoutRightTrace] at h
  | succ k ih =>
    intro r pr h
    simp only [stepoutRightTrace] at h
    split at h
    · rcases List.mem_cons.mp h with h | h
      · subst h; exact ⟨rfl, by simp only; linarith⟩
      · have := ih (r + w) pr h
        exact ⟨this.1, by linarith [this.2]⟩
    · simp at h

theorem stepoutLeftTrace_chain (f : ℚ → ℚ) (y w : ℚ) (hw : 0 ≤ w) :
    ∀ (j : ℕ) (l r : ℚ),
      List.Chain' (fun a b : ℚ × ℚ => b.1 ≤ a.1 ∧ a.2 ≤ b.2)
        ((l, r) :: stepoutLeftTrace f y w j l r) := by
  intro j
  induction j with
  | zero => intro l r; simp [stepoutLeftTrace]
  | succ j ih =>
    intro l r
    simp only [stepoutLeftTrace]
    split
    · exact List.chain'_cons.mpr ⟨⟨by simp; linarith, by simp⟩, ih (l - w) r⟩
    · simp

theorem stepoutRightTrace_chain (f : ℚ → ℚ) (y w l : ℚ) (hw : 0 ≤ w) :
    ∀ (k : ℕ) (r : ℚ),
      List.Chain' (fun a b : ℚ × ℚ => b.1 ≤ a.1 ∧ a.2 ≤ b.2)
        ((l, r) :: stepoutRightTrace f y w l k r) := by
  intro k
  induction k with
  | zero => intro r; simp [stepoutRightTrace]
  | succ k ih =>
    intro r
    simp only [stepoutRightTrace]
    split
    · exact List.chain'_cons.mpr ⟨⟨by simp, by simp; linarith⟩, ih (r + w)⟩
    · simp

theorem stepoutLeftTrace_getLast? (f : ℚ → ℚ) (y w : ℚ) :
    ∀ (j : ℕ) (l r : ℚ),
      ((l, r) :: stepoutLeftTrace f y w j l r).getLast? =
        some (stepoutLeftFinal f y w j l, r) := by
  intro j
  induction j with
  | zero => intro l r; simp [stepoutLeftTrace, stepoutLeftFinal]
  | succ j ih =>
    intro l r
    simp only [stepoutLeftTrace, stepoutLeftFinal]
    split
    · rw [List.getLast?_cons_cons, ih (l - w) r]
    · simp

theorem stepoutRightTrace_head (f : ℚ → ℚ) (y w l : ℚ) :
    ∀ (k : ℕ) (r : ℚ), ∀ pr ∈ (stepoutRightTrace f y w l k r).head?, pr = (l, r + w) := by
  intro k
  cases k with
  | zero => intro r pr h; simp [stepoutRightTrace] at h
  | succ k =>
    intro r pr h
    simp only [stepoutRightTrace] at h
    split at h
    · simp at h; exact h.symm
    · simp at h

/-! ## Lemmas about the doubling loop -/

theorem doubleFinal_bracket (f : ℚ → ℚ) (y : ℚ) :
    ∀ (k : ℕ) (vs : ℕ → ℚ) (l r : ℚ), l ≤ r →
      (doubleFinal f y k vs l r).1 ≤ l ∧ r ≤ (doubleFinal f y k vs l r).2 := by
  intro k
  induction k with
  | zero => intro vs l r h; simp [doubleFinal]
  | succ k ih =>
    intro vs l r h
    simp only [doubleFinal]
    split
    · split
      · have := ih (fun n => vs (n + 1)) (l - (r - l)) r (by linarith)
        exact ⟨by linarith [this.1], this.2⟩
      · have := ih (fun n => vs (n + 1)) l (r + (r - l)) (by linarith)
        exact ⟨this.1, by linarith [this.2]⟩
    · exact ⟨le_refl l, le_refl r⟩

theorem doubleTrace_length (f : ℚ → ℚ) (y : ℚ) :
    ∀ (k : ℕ) (vs : ℕ → ℚ) (l r : ℚ), (doubleTrace f y k vs l r).length ≤ k := by
  intro k
  induction k with
  | zero => intro vs l r; simp [doubleTrace]
  | succ k ih =>
    intro vs l r
    simp only [doubleTrace]
    split
    · split
      · simpa using Nat.succ_le_succ (ih (fun n => vs (n + 1)) _ _)
      · simpa using Nat.succ_le_succ (ih (fun n => vs (n + 1)) _ _)
    · simp

theorem doubleTrace_chain_width (f : ℚ → ℚ) (y : ℚ) :
    ∀ (k : ℕ) (vs : ℕ → ℚ) (l r : ℚ),
      List.Chain' (fun a b : ℚ × ℚ => b.2 - b.1 = 2 * (a.2 - a.1))
        ((l, r) :: doubleTrace f y k vs l r) := by
  intro k
  induction k with
  | zero => intro vs l r; simp [doubleTrace]
  | succ k ih =>
    intro vs l r
    simp only [doubleTrace]
    split
    · split
      · exact List.chain'_cons.mpr ⟨by simp; ring, ih (fun n => vs (n + 1)) _ _⟩
      · exact List.chain'_cons.mpr ⟨by simp; ring, ih (fun n => vs (n + 1)) _ _⟩
    · simp

theorem doubleTrace_mem (f : ℚ → ℚ) (y : ℚ) :
    ∀ (k : ℕ) (vs : ℕ → ℚ) (l r : ℚ), l ≤ r →
      ∀ pr ∈ doubleTrace f y k vs l r, pr.1 ≤ l ∧ r ≤ pr.2 := by
  intro k
  induction k with
  | zero => intro vs l r _ pr h; simp [doubleTrace] at h
  | succ k ih =>
    intro vs l r hlr pr h
    simp only [doubleTrace] at h
    split at h
    · split at h
      · rcases List.mem_cons.mp h with h | h
        · subst h; exact ⟨by simp only; linarith, le_refl r⟩
        · have := ih (fun n => vs (n + 1)) (l - (r - l)) r (by linarith) pr h
          exact ⟨by linarith [this.1], this.2⟩
      · rcases List.mem_cons.mp h with h | h
        · subst h; exact ⟨le_refl l, by simp only; linarith⟩
        · have := ih (fun n => vs (n + 1)) l (r + (r - l)) (by linarith) pr h
          exact ⟨this.1, by linarith [this.2]⟩
    · simp at h

theorem doubleTrace_chain_mono (f : ℚ → ℚ) (y : ℚ) :
    ∀ (k : ℕ) (vs : ℕ → ℚ) (l r : ℚ), l ≤ r →
      List.Chain' (fun a b : ℚ × ℚ => b.1 ≤ a.1 ∧ a.2 ≤ b.2)
        ((l, r) :: doubleTrace f y k vs l r) := by
  intro k
  induction k with
  | zero => intro vs l r _; simp [doubleTrace]
  | succ k ih =>
    intro vs l r hlr
    simp only [doubleTrace]
    split
    · split
      · exact List.chain'_cons.mpr
          ⟨⟨by simp; linarith, by simp⟩, ih (fun n => vs (n + 1)) _ _ (by linarith)⟩
      · exact List.chain'_cons.mpr
          ⟨⟨by simp, by simp; linarith⟩, ih (fun n => vs (n + 1)) _ _ (by linarith)⟩
    · simp

theorem stepoutLeftTrace_snd (f : ℚ → ℚ) (y w : ℚ) :
    ∀ (j : ℕ) (l r : ℚ), ∀ pr ∈ stepoutLeftTrace f y w j l r, pr.2 = r := by
  intro j
  induction j with
  | zero => intro l r pr h; simp [stepoutLeftTrace] at h
  | succ j ih =>
    intro l r pr h
    simp only [stepoutLeftTrace] at h
    split at h
    · rcases List.mem_cons.mp h with h | h
      · subst h; rfl
      · exact ih (l - w) r pr h
    · simp at h

theorem stepoutRightTrace_fst (f : ℚ → ℚ) (y w l : ℚ) :
    ∀ (k : ℕ) (r : ℚ), ∀ pr ∈ stepoutRightTrace f y w l k r, pr.1 = l := by
  intro k
  induction k with
  | zero => intro r pr h; simp [stepoutRightTrace] at h
  | succ k ih =>
    intro r pr h
    simp only [stepoutRightTrace] at h
    split at h
    · rcases List.mem_cons.mp h with h | h
      · subst h; rfl
      · exact ih (r + w) pr h
    · simp at h

/-! ## Claim C1 -/

/-- C1: for every interval-search call (step-out or doubling) at point `x`
and height `y` whose initial unit draw `u` lies in `[0,1]` (and nonnegative
initial width `w`, as in both calls of the source), the returned pair
`(l, r)` satisfies `l ≤ x ≤ r`, for every random draw sequence. -/
theorem stepout_double_bracket (f : ℚ → ℚ) (x y u v w : ℚ) (vs : ℕ → ℚ) (m p : ℕ)
    (hu0 : 0 ≤ u) (hu1 : u ≤ 1) (hw : 0 ≤ w) :
    ((stepout f x y u v w m).1 ≤ x ∧ x ≤ (stepout f x y u v w m).2) ∧
    ((double f x y u vs w p).1 ≤ x ∧ x ≤ (double f x y u vs w p).2) := by
  have hwu : 0 ≤ w * u := mul_nonneg hw hu0
  have hwu1 : 0 ≤ w * (1 - u) := mul_nonneg hw (by linarith)
  constructor
  · constructor
    · have := stepoutLeftFinal_le f y w hw (Int.toNat ⌊(m : ℚ) * v⌋) (x - w * u)
      simp only [stepout]
      linarith
    · have := stepoutRightFinal_ge f y w hw
        (Int.toNat ((m : ℤ) - 1 - ⌊(m : ℚ) * v⌋)) (x - w * u + w)
      simp only [stepout]
      nlinarith
  · have := doubleFinal_bracket f y p vs (x - w * u) (x - w * u + w) (by linarith)
    simp only [double]
    constructor
    · linarith [this.1]
    · nlinarith [this.2]

theorem stepout_double_bracket_witness :
    ((stepout (fun _ => 0) 0 0 (1/2) 0 1 40).1 ≤ 0 ∧
      (0:ℚ) ≤ (stepout (fun _ => 0) 0 0 (1/2) 0 1 40).2) ∧
    ((double (fun _ => 0) 0 0 (1/2) (fun _ => 0) 1 5).1 ≤ 0 ∧
      (0:ℚ) ≤ (double (fun _ => 0) 0 0 (1/2) (fun _ => 0) 1 5).2) :=
  stepout_double_bracket (fun _ => 0) 0 0 (1/2) 0 1 (fun _ => 0) 40 5
    (by norm_num) (by norm_num) (by norm_num)

/-! ## Claim C3 -/

/-- C3: in the doubling search, every retained loop iteration exactly
doubles the interval width (each emitted `(l, r)` satisfies
`r - l = 2 * (previous r - previous l)`, whichever side was extended), and
the loop runs at most `p` iterations in total. -/
theorem double_width_doubles (f : ℚ → ℚ) (x y u : ℚ) (vs : ℕ → ℚ) (w : ℚ) (p : ℕ) :
    (doubleTrace f y p vs (x - w * u) (x - w * u + w)).length ≤ p ∧
    List.Chain' (fun a b : ℚ × ℚ => b.2 - b.1 = 2 * (a.2 - a.1))
      ((x - w * u, x - w * u + w) :: doubleTrace f y p vs (x - w * u) (x - w * u + w)) :=
  ⟨doubleTrace_length f y p vs _ _, doubleTrace_chain_width f y p vs _ _⟩

/-! ## Claim C2 -/

/-- C2: in the step-out search with budget `m` and side draw `v` (a genuine
`np.random.uniform()` draw, so `0 ≤ v < 1`; `m ≥ 1` as in the only call,
`m = 40`), writing `j = ⌊m·v⌋` and `k = m - 1 - j` as the source computes
them: the left loop emits at most `j` expansions, the right loop at most `k`,
`j + k = m - 1`, and the emitted trace is the left loop's writes (which keep
`r` at its initial value) followed by the right loop's writes (which keep `l`
at its final left value) — the left loop finishes before any rightward
expansion. -/
theorem stepout_budget_split (f : ℚ → ℚ) (x y u v w : ℚ) (m : ℕ)
    (hm : 1 ≤ m) (hv0 : 0 ≤ v) (hv1 : v < 1) :
    ((stepoutLeftTrace f y w (⌊(m : ℚ) * v⌋).toNat (x - w * u) (x - w * u + w)).length : ℤ)
        ≤ ⌊(m : ℚ) * v⌋ ∧
    ((stepoutRightTrace f y w
        (stepoutLeftFinal f y w (⌊(m : ℚ) * v⌋).toNat (x - w * u))
        ((m : ℤ) - 1 - ⌊(m : ℚ) * v⌋).toNat (x - w * u + w)).length : ℤ)
        ≤ (m : ℤ) - 1 - ⌊(m : ℚ) * v⌋ ∧
    ⌊(m : ℚ) * v⌋ + ((m : ℤ) - 1 - ⌊(m : ℚ) * v⌋) = (m : ℤ) - 1 ∧
    stepoutTrace f x y u v w m =
      stepoutLeftTrace f y w (⌊(m : ℚ) * v⌋).toNat (x - w * u) (x - w * u + w) ++
        stepoutRightTrace f y w
          (stepoutLeftFinal f y w (⌊(m : ℚ) * v⌋).toNat (x - w * u))
          ((m : ℤ) - 1 - ⌊(m : ℚ) * v⌋).toNat (x - w * u + w) ∧
    (∀ pr ∈ stepoutLeftTrace f y w (⌊(m : ℚ) * v⌋).toNat (x - w * u) (x - w * u + w),
        pr.2 = x - w * u + w) ∧
    (∀ pr ∈ stepoutRightTrace f y w
        (stepoutLeftFinal f y w (⌊(m : ℚ) * v⌋).toNat (x - w * u))
        ((m : ℤ) - 1 - ⌊(m : ℚ) * v⌋).toNat (x - w * u + w),
        pr.1 = stepoutLeftFinal f y w (⌊(m : ℚ) * v⌋).toNat (x - w * u)) := by
  have hj0 : (0 : ℤ) ≤ ⌊(m : ℚ) * v⌋ :=
    Int.floor_nonneg.mpr (mul_nonneg (by positivity) hv0)
  have hmpos : (0 : ℚ) < (m : ℚ) := by exact_mod_cast hm
  have hjm : ⌊(m : ℚ) * v⌋ < (m : ℤ) := by
    apply Int.floor_lt.mpr
    push_cast
    nlinarith
  have hk0 : (0 : ℤ) ≤ (m : ℤ) - 1 - ⌊(m : ℚ) * v⌋ := by omega
  refine ⟨?_, ?_, by ring, rfl, stepoutLeftTrace_snd f y w _ _ _,
    stepoutRightTrace_fst f y w _ _ _⟩
  · calc ((stepoutLeftTrace f y w (⌊(m : ℚ) * v⌋).toNat (x - w * u)
            (x - w * u + w)).length : ℤ)
        ≤ ((⌊(m : ℚ) * v⌋).toNat : ℤ) := by
          exact_mod_cast stepoutLeftTrace_length f y w (⌊(m : ℚ) * v⌋).toNat _ _
      _ = ⌊(m : ℚ) * v⌋ := Int.toNat_of_nonneg hj0
  · calc ((stepoutRightTrace f y w
            (stepoutLeftFinal f y w (⌊(m : ℚ) * v⌋).toNat (x - w * u))
            ((m : ℤ) - 1 - ⌊(m : ℚ) * v⌋).toNat (x - w * u + w)).length : ℤ)
        ≤ (((m : ℤ) - 1 - ⌊(m : ℚ) * v⌋).toNat : ℤ) := by
          exact_mod_cast stepoutRightTrace_length f y w _
            ((m : ℤ) - 1 - ⌊(m : ℚ) * v⌋).toNat _
      _ = (m : ℤ) - 1 - ⌊(m : ℚ) * v⌋ := Int.toNat_of_nonneg hk0

theorem stepout_budget_split_witness :
    ((stepoutLeftTrace (fun _ => 0) 0 1 (⌊((40 : ℕ) : ℚ) * 0⌋).toNat (0 - 1 * 0)
        (0 - 1 * 0 + 1)).length : ℤ) ≤ ⌊((40 : ℕ) : ℚ) * 0⌋ ∧
    ((stepoutRightTrace (fun _ => 0) 0 1
        (stepoutLeftFinal (fun _ => 0) 0 1 (⌊((40 : ℕ) : ℚ) * 0⌋).toNat (0 - 1 * 0))
        (((40 : ℕ) : ℤ) - 1 - ⌊((40 : ℕ) : ℚ) * 0⌋).toNat (0 - 1 * 0 + 1)).length : ℤ)
        ≤ ((40 : ℕ) : ℤ) - 1 - ⌊((40 : ℕ) : ℚ) * 0⌋ ∧
    ⌊((40 : ℕ) : ℚ) * 0⌋ + (((40 : ℕ) : ℤ) - 1 - ⌊((40 : ℕ) : ℚ) * 0⌋) = ((40 : ℕ) : ℤ) - 1 ∧
    stepoutTrace (fun _ => 0) 0 0 0 0 1 40 =
      stepoutLeftTrace (fun _ => 0) 0 1 (⌊((40 : ℕ) : ℚ) * 0⌋).toNat (0 - 1 * 0)
          (0 - 1 * 0 + 1) ++
        stepoutRightTrace (fun _ => 0) 0 1
          (stepoutLeftFinal (fun _ => 0) 0 1 (⌊((40 : ℕ) : ℚ) * 0⌋).toNat (0 - 1 * 0))
          (((40 : ℕ) : ℤ) - 1 - ⌊((40 : ℕ) : ℚ) * 0⌋).toNat (0 - 1 * 0 + 1) ∧
    (∀ pr ∈ stepoutLeftTrace (fun _ => 0) 0 1 (⌊((40 : ℕ) : ℚ) * 0⌋).toNat (0 - 1 * 0)
        (0 - 1 * 0 + 1), pr.2 = 0 - 1 * 0 + 1) ∧
    (∀ pr ∈ stepoutRightTrace (fun _ => 0) 0 1
        (stepoutLeftFinal (fun _ => 0) 0 1 (⌊((40 : ℕ) : ℚ) * 0⌋).toNat (0 - 1 * 0))
        (((40 : ℕ) : ℤ) - 1 - ⌊((40 : ℕ) : ℚ) * 0⌋).toNat (0 - 1 * 0 + 1),
        pr.1 = stepoutLeftFinal (fun _ => 0) 0 1 (⌊((40 : ℕ) : ℚ) * 0⌋).toNat (0 - 1 * 0)) :=
  stepout_budget_split (fun _ => 0) 0 0 0 0 1 40 (by norm_num) (by norm_num) (by norm_num)

/-! ## Claim C10 -/

/-- C10: within a single interval-search call of either strategy, across the
sequence of intermediate `(l, r)` pairs written to `self.slice`, `l` is
nonincreasing and `r` is nondecreasing; every intermediate pair contains the
initial interval and hence the point `x` — partial progress is itself a valid
bracketing state. (`0 ≤ u ≤ 1` is the range of the initial unit draw and
`0 ≤ w` holds for both calls of the source.) -/
theorem search_trace_monotone (f : ℚ → ℚ) (x y u v w : ℚ) (vs : ℕ → ℚ) (m p : ℕ)
    (hu0 : 0 ≤ u) (hu1 : u ≤ 1) (hw : 0 ≤ w) :
    (List.Chain' (fun a b : ℚ × ℚ => b.1 ≤ a.1 ∧ a.2 ≤ b.2)
        ((x - w * u, x - w * u + w) :: stepoutTrace f x y u v w m) ∧
      ∀ pr ∈ stepoutTrace f x y u v w m,
        pr.1 ≤ x - w * u ∧ x - w * u + w ≤ pr.2 ∧ pr.1 ≤ x ∧ x ≤ pr.2) ∧
    (List.Chain' (fun a b : ℚ × ℚ => b.1 ≤ a.1 ∧ a.2 ≤ b.2)
        ((x - w * u, x - w * u + w) :: doubleTrace f y p vs (x - w * u) (x - w * u + w)) ∧
      ∀ pr ∈ doubleTrace f y p vs (x - w * u) (x - w * u + w),
        pr.1 ≤ x - w * u ∧ x - w * u + w ≤ pr.2 ∧ pr.1 ≤ x ∧ x ≤ pr.2) := by
  have hwu : 0 ≤ w * u := mul_nonneg hw hu0
  have hwu1 : 0 ≤ w * (1 - u) := mul_nonneg hw (by linarith)
  have hl0x : x - w * u ≤ x := by linarith
  have hxr0 : x ≤ x - w * u + w := by nlinarith
  constructor
  · constructor
    · show List.Chain' (fun a b : ℚ × ℚ => b.1 ≤ a.1 ∧ a.2 ≤ b.2)
        (((x - w * u, x - w * u + w) ::
            stepoutLeftTrace f y w (⌊(m : ℚ) * v⌋).toNat (x - w * u) (x - w * u + w)) ++
          stepoutRightTrace f y w
            (stepoutLeftFinal f y w (⌊(m : ℚ) * v⌋).toNat (x - w * u))
            ((m : ℤ) - 1 - ⌊(m : ℚ) * v⌋).toNat (x - w * u + w))
      refine List.Chain'.append (stepoutLeftTrace_chain f y w hw _ _ _)
        ((stepoutRightTrace_chain f y w _ hw _ _).tail) ?_
      intro a ha b hb
      have hb2 := stepoutRightTrace_head f y w _ _ _ b hb
      have ha2 : a = (stepoutLeftFinal f y w (⌊(m : ℚ) * v⌋).toNat (x - w * u),
          x - w * u + w) := by
        rw [Option.mem_def, stepoutLeftTrace_getLast?] at ha
        exact (Option.some_inj.mp ha).symm
      subst ha2; subst hb2
      exact ⟨le_refl _, by simp only; linarith⟩
    · intro pr h
      rcases List.mem_append.mp h with h | h
      · have := stepoutLeftTrace_mem f y w hw _ _ _ pr h
        refine ⟨this.1, le_of_eq this.2.symm, by linarith [this.1], ?_⟩
        rw [this.2]; exact hxr0
      · have h1 := stepoutRightTrace_fst f y w _ _ _ pr h
        have h2 := (stepoutRightTrace_mem f y w _ hw _ _ pr h).2
        have h3 := stepoutLeftFinal_le f y w hw (⌊(m : ℚ) * v⌋).toNat (x - w * u)
        rw [h1]
        exact ⟨h3, h2, by linarith, by linarith⟩
  · constructor
    · exact doubleTrace_chain_mono f y p vs _ _ (by linarith)
    · intro pr h
      have := doubleTrace_mem f y p vs _ _ (by linarith) pr h
      exact ⟨this.1, this.2, by linarith [this.1], by linarith [this.2]⟩

theorem search_trace_monotone_witness :
    (List.Chain' (fun a b : ℚ × ℚ => b.1 ≤ a.1 ∧ a.2 ≤ b.2)
        ((0 - 1 * (1/2), 0 - 1 * (1/2) + 1) :: stepoutTrace (fun _ => 0) 0 0 (1/2) 0 1 40) ∧
      ∀ pr ∈ stepoutTrace (fun _ => 0) 0 0 (1/2) 0 1 40,
        pr.1 ≤ 0 - 1 * (1/2) ∧ 0 - 1 * (1/2) + 1 ≤ pr.2 ∧ pr.1 ≤ 0 ∧ 0 ≤ pr.2) ∧
    (List.Chain' (fun a b : ℚ × ℚ => b.1 ≤ a.1 ∧ a.2 ≤ b.2)
        ((0 - 1 * (1/2), 0 - 1 * (1/2) + 1) ::
          doubleTrace (fun _ => 0) 0 5 (fun _ => 0) (0 - 1 * (1/2)) (0 - 1 * (1/2) + 1)) ∧
      ∀ pr ∈ doubleTrace (fun _ => 0) 0 5 (fun _ => 0) (0 - 1 * (1/2)) (0 - 1 * (1/2) + 1),
        pr.1 ≤ 0 - 1 * (1/2) ∧ 0 - 1 * (1/2) + 1 ≤ pr.2 ∧ pr.1 ≤ 0 ∧ 0 ≤ pr.2) :=
  search_trace_monotone (fun _ => 0) 0 0 (1/2) 0 1 (fun _ => 0) 40 5
    (by norm_num) (by norm_num) (by norm_num)

/-! ## Claim C6 -/

/-- C6: `change_update_fn` succeeds for ids `0` (step-out) and `1`
(doubling); every other id raises the not-an-update-function error, and on
failure the whole sampler state — the previously selected strategy
included — is returned unchanged. -/
theorem change_update_fn_spec (s : SamplerState) (fn : ℤ) :
    change_update_fn s 0 = ({ s with update_fn := UpdateFn.stepout }, none) ∧
    change_update_fn s 1 = ({ s with update_fn := UpdateFn.double }, none) ∧
    (fn ≠ 0 → fn ≠ 1 → change_update_fn s fn = (s, some fn)) := by
  refine ⟨rfl, ?_, ?_⟩
  · simp [change_update_fn]
  · intro h0 h1
    simp [change_update_fn, h0, h1]

/-! ## Claim C9 -/

/-- C9: on the very first `next_step` call (mode 0, `curr_y` still at its
`-1` sentinel, density nonnegative), the rejection loop body never executes:
the first candidate is drawn and accepted, whatever further draws are
supplied. -/
theorem first_step_no_rejection (f : ℚ → ℚ) (hf : ∀ t, 0 ≤ f t)
    (u : ℚ) (us : List ℚ) (uy su sv : ℚ) (vs : ℕ → ℚ) :
    next_step f ⟨u :: us, uy, su, sv, vs⟩ initState =
      some { initState with mode := 0, curr_x := sample_x initState.slice u } := by
  have h0 : 0 ≤ f (sample_x (-1, -1) u) := hf _
  have hcond : ¬(f (sample_x (-1, -1) u) < -1) := by linarith
  simp only [next_step, initState, rejectLoop]
  norm_num [hcond]

theorem first_step_no_rejection_witness :
    next_step (fun _ => 1) ⟨(3/4) :: [], 0, 0, 0, fun _ => 0⟩ initState =
      some { initState with mode := 0, curr_x := sample_x initState.slice (3/4) } :=
  first_step_no_rejection (fun _ => 1) (fun _ => by norm_num) (3/4) [] 0 0 0 (fun _ => 0)

/-! ## Claim C4 -/

/-- C4 counterexample: with the repository's domain `[-8, 8]`, on the very
first `next_step` call the slice is still the `(-1, -1)` sentinel and the
sampled `x` is `-1` (for the unit draw `1/2`), whereas a uniform draw from
the full domain with the same unit draw would give `0 ≠ -1`: the first `x`
is NOT drawn from `[domain_low, domain_high]`. -/
theorem first_sample_not_from_domain_cex :
    initState.slice = (-1, -1) ∧
    (next_step (fun _ => 0) ⟨[1/2], 0, 0, 0, fun _ => 0⟩ initState).map
        SamplerState.curr_x = some (-1) ∧
    sample_x (-8, 8) (1/2) = 0 ∧ ((-1 : ℚ) ≠ 0) := by
  refine ⟨rfl, ?_, by norm_num [sample_x], by norm_num⟩
  simp only [next_step, initState, rejectLoop]
  norm_num [sample_x]

/-- C4 amended: before the first mode 0 the slice still holds the `(-1,-1)`
sentinel, so the very first `next_step` call draws `x` from the degenerate
sentinel interval: `x = -1` whatever the unit draw, not a draw from the full
domain `[domain_low, domain_high]`. -/
theorem first_sample_from_sentinel (f : ℚ → ℚ) (hf : ∀ t, 0 ≤ f t)
    (u : ℚ) (us : List ℚ) (uy su sv : ℚ) (vs : ℕ → ℚ) :
    (next_step f ⟨u :: us, uy, su, sv, vs⟩ initState).map SamplerState.curr_x =
      some (-1) := by
  have hcond : ¬(f (-1) < -1) := by have := hf (-1); linarith
  simp only [next_step, initState, rejectLoop]
  norm_num [sample_x, hcond]

theorem first_sample_from_sentinel_witness :
    (next_step (fun _ => 1) ⟨(1/3) :: [2/3], 0, 0, 0, fun _ => 0⟩ initState).map
        SamplerState.curr_x = some (-1) :=
  first_sample_from_sentinel (fun _ => 1) (fun _ => by norm_num) (1/3) [2/3] 0 0 0
    (fun _ => 0)

/-! ## Claim C5 -/

theorem arange_eq_nil (a b s : ℚ) (hs : s ≠ 0) :
    arange a b s = [] ↔ ⌈(b - a) / s⌉ ≤ 0 := by
  rw [arange, if_neg hs, List.map_eq_nil_iff, List.range_eq_nil, Int.toNat_eq_zero]

/-- C5 counterexample: `x_low = 8 ≥ -8 = x_high` and `x_step = -1 ≤ 0` are
malformed by the claim's criterion, yet construction succeeds and produces a
sampler instance (`np.arange(8, -8, -1)` is a nonempty descending grid): no
DomainError-class validation exists. -/
theorem construct_inverted_domain_ok_cex :
    ((8 : ℚ) ≥ -8 ∧ (-1 : ℚ) ≤ 0) ∧
    isOkE (construct 8 (-8) (-1) (fun _ => 1)) = true := by
  refine ⟨⟨by norm_num, by norm_num⟩, ?_⟩
  have hc : ⌈((-8:ℚ) - 8) / -1⌉ = 16 := by norm_num
  have h : arange 8 (-8) (-1) ≠ [] := by
    simp [arange, hc]
  simp only [construct, isOkE]
  rw [if_neg (by norm_num), if_neg h]

/-- C5 amended: `__init__` validates nothing and raises no DomainError-class
failure; construction fails — incidentally, via numpy's zero-step error or
the `IndexError` that `__find_patches` hits on an empty grid — exactly when
`x_step = 0` or `⌈(x_high - x_low)/x_step⌉ ≤ 0`. In particular an inverted
domain with a negative step (malformed by the claim) constructs a sampler
successfully. -/
theorem construct_isOk_iff (x_low x_high x_step : ℚ) (f : ℚ → ℚ) :
    isOkE (construct x_low x_high x_step f) = true ↔
      x_step ≠ 0 ∧ 0 < ⌈(x_high - x_low) / x_step⌉ := by
  by_cases hs : x_step = 0
  · simp [construct, isOkE, hs]
  · by_cases hX : arange x_low x_high x_step = []
    · rw [construct, if_neg hs, if_pos hX]
      simp only [isOkE]
      constructor
      · intro h; exact absurd h (by simp)
      · intro h
        exact absurd ((arange_eq_nil _ _ _ hs).mp hX) (by omega)
    · rw [construct, if_neg hs, if_neg hX]
      simp only [isOkE]
      constructor
      · intro _
        refine ⟨hs, ?_⟩
        by_contra hc
        exact hX ((arange_eq_nil _ _ _ hs).mpr (by omega))
      · intro _; trivial

/-! ## Claim C7 -/

theorem collapseAux_length (prev : ℤ) (l : List ℤ) :
    (collapseAux prev l).length = l.length := by
  induction l generalizing prev with
  | nil => rfl
  | cons a t ih => simp [collapseAux, ih]

theorem collapseAux_recur (l : List ℤ) :
    ∀ (prev : ℤ) (i : ℕ), i + 1 < l.length →
      (collapseAux prev l).getD (i + 1) 0 =
        if (collapseAux prev l).getD i 0 ≠ 0 then 0 else l.getD (i + 1) 0 := by
  induction l with
  | nil => intro prev i h; simp at h
  | cons a t ih =>
    intro prev i h
    cases i with
    | zero =>
      cases t with
      | nil => simp at h
      | cons b t' =>
        simp only [collapseAux, List.getD_cons_succ, List.getD_cons_zero]
    | succ i =>
      simp only [collapseAux, List.getD_cons_succ]
      exact ih _ i (by simpa using h)

theorem collapseAux_run_parity (l : List ℤ) :
    ∀ prev : ℤ, (∀ x ∈ l, x ≠ 0) →
      ∀ i, i < l.length →
        (collapseAux prev l).getD i 0 =
          if (prev = 0 ∧ i % 2 = 0) ∨ (prev ≠ 0 ∧ i % 2 = 1) then l.getD i 0 else 0 := by
  induction l with
  | nil => intro prev _ i h; simp at h
  | cons a t ih =>
    intro prev hnz i hi
    have ha : a ≠ 0 := hnz a (List.mem_cons_self a t)
    have hnz' : ∀ x ∈ t, x ≠ 0 := fun x hx => hnz x (List.mem_cons_of_mem a hx)
    by_cases hp : prev = 0
    · cases i with
      | zero => simp [collapseAux, hp]
      | succ i =>
        have hi' : i < t.length := by simpa using hi
        simp only [collapseAux, hp, List.getD_cons_succ, if_neg (by simp : ¬(0:ℤ) ≠ 0)]
        rw [ih a hnz' i hi']
        rcases Nat.mod_two_eq_zero_or_one i with he | he
        · have h2 : (i + 1) % 2 = 1 := by omega
          simp [he, h2, ha]
        · have h2 : (i + 1) % 2 = 0 := by omega
          simp [he, h2, ha]
    · cases i with
      | zero => simp [collapseAux, hp]
      | succ i =>
        have hi' : i < t.length := by simpa using hi
        simp only [collapseAux, if_pos hp, List.getD_cons_succ]
        rw [ih 0 hnz' i hi']
        rcases Nat.mod_two_eq_zero_or_one i with he | he
        · have h2 : (i + 1) % 2 = 1 := by omega
          simp [he, h2, hp]
        · have h2 : (i + 1) % 2 = 0 := by omega
          simp [he, h2, hp]

/-- C7 counterexample: the sign-difference array of `Y = [1, 0, -1, 0, 1]`
against threshold `0` is `[-1, -1, 1, 1]`, a single maximal run of four
consecutive nonzero entries; the collapse loop keeps its third entry (offset
2, a "later entry of the run") nonzero instead of zeroing everything after
the first. -/
theorem collapse_keeps_third_marker_cex :
    diffList (signsOf [1, 0, -1, 0, 1] 0) = [-1, -1, 1, 1] ∧
    collapse [-1, -1, 1, 1] = [-1, 0, 1, 0] ∧
    (collapse [-1, -1, 1, 1]).getD 2 0 ≠ 0 := by
  refine ⟨?_, by decide, by decide⟩
  norm_num [diffList, signsOf, signQ]

/-- C7 amended: the collapse loop preserves length and the first entry, and
zeroes an entry exactly when its already-collapsed predecessor is nonzero;
consequently, within a maximal run of consecutive nonzero entries the kept
markers are those at EVEN offsets from the run's start (not only the first
one — that holds only for runs of length at most 2). The last conjunct shows
this for an array that is a single maximal run. -/
theorem collapse_zeroes_even_offsets :
    (∀ l : List ℤ, (collapse l).length = l.length) ∧
    (∀ l : List ℤ, (collapse l).getD 0 0 = l.getD 0 0) ∧
    (∀ (l : List ℤ) (i : ℕ), i + 1 < l.length →
        (collapse l).getD (i + 1) 0 =
          if (collapse l).getD i 0 ≠ 0 then 0 else l.getD (i + 1) 0) ∧
    (∀ run : List ℤ, (∀ x ∈ run, x ≠ 0) → ∀ i, i < run.length →
        (collapse run).getD i 0 = if i % 2 = 0 then run.getD i 0 else 0) := by
  refine ⟨fun l => collapseAux_length 0 l, ?_, fun l i h => collapseAux_recur l 0 i h, ?_⟩
  · intro l
    cases l with
    | nil => rfl
    | cons a t => simp [collapse, collapseAux]
  · intro run hnz i hi
    rw [collapse, collapseAux_run_parity run 0 hnz i hi]
    simp

/-! ## Claim C8 -/

theorem argmin_lt_length (l : List ℚ) (h : l ≠ []) : argmin l < l.length := by
  induction l with
  | nil => exact absurd rfl h
  | cons a t ih =>
    cases t with
    | nil => simp [argmin]
    | cons b t' =>
      simp only [argmin]
      split
      · simp
      · simpa using Nat.succ_lt_succ (ih (by simp))

theorem argmin_le_getD (l : List ℚ) :
    ∀ j < l.length, l.getD (argmin l) 0 ≤ l.getD j 0 := by
  induction l with
  | nil => intro j hj; simp at hj
  | cons a t ih =>
    cases t with
    | nil =>
      intro j hj
      have hj0 : j = 0 := by simpa using hj
      subst hj0
      simp [argmin]
    | cons b t' =>
      intro j hj
      simp only [argmin]
      split
      · rename_i ha
        cases j with
        | zero => simp
        | succ j =>
          have := ih j (by simpa using hj)
          simp only [List.getD_cons_zero, List.getD_cons_succ]
          exact le_trans ha this
      · rename_i ha
        push_neg at ha
        cases j with
        | zero => simpa using le_of_lt ha
        | succ j =>
          simp only [List.getD_cons_succ]
          exact ih j (by simpa using hj)

theorem argmin_first_strict (l : List ℚ) :
    ∀ j < argmin l, l.getD (argmin l) 0 < l.getD j 0 := by
  induction l with
  | nil => intro j hj; simp [argmin] at hj
  | cons a t ih =>
    cases t with
    | nil => intro j hj; simp [argmin] at hj
    | cons b t' =>
      intro j hj
      simp only [argmin] at hj ⊢
      split at hj
      · simp at hj
      · rename_i ha
        push_neg at ha
        rw [if_neg (not_le.mpr ha)]
        cases j with
        | zero => simpa using ha
        | succ j =>
          simp only [List.getD_cons_succ]
          exact ih j (by omega)

theorem getD_map_abs (X : List ℚ) (x : ℚ) :
    ∀ j < X.length, (X.map fun t => |t - x|).getD j 0 = |X.getD j 0 - x| := by
  induction X with
  | nil => intro j h; simp at h
  | cons a t ih =>
    intro j hj
    cases j with
    | zero => simp
    | succ j => simpa using ih j (by simpa using hj)

/-- C8: for every query point `x` on a nonempty grid, `__fx` returns `Y[i]`
where `i` is an index of `X` minimizing `|X[i] - x|`, and every index before
`i` has a strictly larger distance — `np.argmin` breaks ties toward the
lower index, deterministically. -/
theorem fx_nearest_grid_point (X Y : List ℚ) (x : ℚ) (hX : X ≠ []) :
    argmin (X.map fun t => |t - x|) < X.length ∧
    fx X Y x = Y.getD (argmin (X.map fun t => |t - x|)) 0 ∧
    (∀ j < X.length,
      |X.getD (argmin (X.map fun t => |t - x|)) 0 - x| ≤ |X.getD j 0 - x|) ∧
    (∀ j < argmin (X.map fun t => |t - x|),
      |X.getD (argmin (X.map fun t => |t - x|)) 0 - x| < |X.getD j 0 - x|) := by
  have hlen : (X.map fun t => |t - x|).length = X.length := List.length_map X _
  have hne : (X.map fun t => |t - x|) ≠ [] := by
    intro hc
    exact hX (List.map_eq_nil_iff.mp hc)
  have hi : argmin (X.map fun t => |t - x|) < X.length := by
    have := argmin_lt_length _ hne
    omega
  refine ⟨hi, rfl, ?_, ?_⟩
  · intro j hj
    have h1 := argmin_le_getD (X.map fun t => |t - x|) j (by omega)
    rwa [getD_map_abs X x _ hi, getD_map_abs X x j hj] at h1
  · intro j hj
    have h1 := argmin_first_strict (X.map fun t => |t - x|) j hj
    rwa [getD_map_abs X x _ hi, getD_map_abs X x j (by omega)] at h1

theorem fx_nearest_grid_point_witness :
    argmin (([0, 1] : List ℚ).map fun t => |t - 2|) < ([0, 1] : List ℚ).length ∧
    fx [0, 1] [5, 7] 2 =
      List.getD [5, 7] (argmin (([0, 1] : List ℚ).map fun t => |t - 2|)) 0 ∧
    (∀ j < ([0, 1] : List ℚ).length,
      |List.getD ([0, 1] : List ℚ) (argmin (([0, 1] : List ℚ).map fun t => |t - 2|)) 0 - 2| ≤
        |List.getD ([0, 1] : List ℚ) j 0 - 2|) ∧
    (∀ j < argmin (([0, 1] : List ℚ).map fun t => |t - 2|),
      |List.getD ([0, 1] : List ℚ) (argmin (([0, 1] : List ℚ).map fun t => |t - 2|)) 0 - 2| <
        |List.getD ([0, 1] : List ℚ) j 0 - 2|) :=
  fx_nearest_grid_point [0, 1] [5, 7] 2 (by simp)

end Elliptical
